import Mathlib

/-!
Verification of the occupancy-frequency engine of `rmdp.py` (class `MDP`).

Conventions used throughout: machine floating-point numbers are modelled by
exact rationals `ℚ`; the external LP solver (`gurobipy`) is idealized as
returning an exact optimal solution exactly when it reports `OPTIMAL`.
An `S × A` matrix is a function `Fin S → Fin A → ℚ`.  The source flattens
`S × A` matrices with `reshape(..., order="F")`, which places entry `(s, a)`
at flat index `a * S + s`.  The design matrix `W` (`construct_design_matrix`)
stacks the `S × S` blocks `I - γ·P[:,:,a]` vertically, so row `a * S + s` of
`W` is `e_s - γ·P[s,:,a]`, and the Bellman-flow product satisfies
`(Wᵀ u)[s'] = ∑ a ∑ s, u[s,a]·((if s = s' then 1 else 0) - γ·P[s,s',a])`.
-/

namespace RMDP

open Finset

/-- Row-stochasticity of every transition slice `P[:,:,a]` of the `S × S × A`
transition tensor, the validity condition the spec assumes of a Model. -/
def rowStochastic {S A : ℕ} (P : Fin S → Fin S → Fin A → ℚ) : Prop :=
  ∀ (s : Fin S) (a : Fin A), ∑ s', P s s' a = 1

instance {S A : ℕ} (P : Fin S → Fin S → Fin A → ℚ) : Decidable (rowStochastic P) := by
  unfold rowStochastic; infer_instance

/-- Entry `s'` of `Wᵀ u` where `W` is `construct_design_matrix` (the vertical
stack over actions of `I - γ·P[:,:,a]`) and `u` is an `S × A` occupancy matrix
flattened in `order="F"` (entry `(s,a)` at flat index `a*S + s`). -/
def WtMulU {S A : ℕ} (P : Fin S → Fin S → Fin A → ℚ) (γ : ℚ)
    (u : Fin S → Fin A → ℚ) (s' : Fin S) : ℚ :=
  ∑ a, ∑ s, u s a * ((if s = s' then (1 : ℚ) else 0) - γ * P s s' a)

/-- Feasibility region of the Bellman-flow LPs in
`solve_putterman_dual_LP_for_Opt_policy` and `solve_worst`:
variables bounded below by `0` (`lb=0.0`) and `Wᵀu = p0` (`addMConstr`). -/
def feasible {S A : ℕ} (P : Fin S → Fin S → Fin A → ℚ) (γ : ℚ) (p0 : Fin S → ℚ)
    (u : Fin S → Fin A → ℚ) : Prop :=
  (∀ s a, 0 ≤ u s a) ∧ ∀ s', WtMulU P γ u s' = p0 s'

instance {S A : ℕ} (P : Fin S → Fin S → Fin A → ℚ) (γ : ℚ) (p0 : Fin S → ℚ)
    (u : Fin S → Fin A → ℚ) : Decidable (feasible P γ p0 u) := by
  unfold feasible; infer_instance

/-- Total mass `np.sum(u_flat)` of an occupancy matrix. -/
def totalMass {S A : ℕ} (u : Fin S → Fin A → ℚ) : ℚ := ∑ s, ∑ a, u s a

/-- LP objective `r @ u` on the flattened occupancy variable (the return). -/
def dotR {S A : ℕ} (r u : Fin S → Fin A → ℚ) : ℚ := ∑ s, ∑ a, r s a * u s a

/-- Post-solve clamping loop of `solve_putterman_dual_LP_for_Opt_policy`:
`if u_flat[i] < 0: u_flat[i] = 0.0`. -/
def clampNeg {S A : ℕ} (u : Fin S → Fin A → ℚ) : Fin S → Fin A → ℚ :=
  fun s a => if u s a < 0 then 0 else u s a

lemma clampNeg_eq_of_nonneg {S A : ℕ} {u : Fin S → Fin A → ℚ}
    (h : ∀ s a, 0 ≤ u s a) : clampNeg u = u := by
  funext s a
  exact if_neg (not_lt.2 (h s a))

lemma sum_WtMulU {S A : ℕ} (P : Fin S → Fin S → Fin A → ℚ) (γ : ℚ)
    (u : Fin S → Fin A → ℚ) (hP : rowStochastic P) :
    ∑ s', WtMulU P γ u s' = (1 - γ) * totalMass u := by
  unfold WtMulU totalMass
  rw [Finset.sum_comm]
  have h2 : ∀ a : Fin A,
      (∑ s' : Fin S, ∑ s : Fin S,
          u s a * ((if s = s' then (1 : ℚ) else 0) - γ * P s s' a))
        = ∑ s : Fin S, (1 - γ) * u s a := by
    intro a
    rw [Finset.sum_comm]
    refine Finset.sum_congr rfl fun s _ => ?_
    rw [← Finset.mul_sum, Finset.sum_sub_distrib, Finset.sum_ite_eq,
      ← Finset.mul_sum, hP s a]
    simp only [Finset.mem_univ, if_true]
    ring
  have h3 : (∑ a : Fin A, ∑ s' : Fin S, ∑ s : Fin S,
      u s a * ((if s = s' then (1 : ℚ) else 0) - γ * P s s' a))
        = ∑ a : Fin A, ∑ s : Fin S, (1 - γ) * u s a :=
    Finset.sum_congr rfl fun a _ => h2 a
  rw [h3, Finset.sum_comm]
  simp [Finset.mul_sum]

/-- Every exactly-feasible point of the Bellman-flow polytope of a valid Model
has total mass `1/(1-γ)`. -/
lemma totalMass_of_feasible {S A : ℕ} {P : Fin S → Fin S → Fin A → ℚ} {γ : ℚ}
    {p0 : Fin S → ℚ} {u : Fin S → Fin A → ℚ} (hP : rowStochastic P)
    (hp0 : ∑ s, p0 s = 1) (hγ1 : γ < 1) (hu : feasible P γ p0 u) :
    totalMass u = 1 / (1 - γ) := by
  have h := sum_WtMulU P γ u hP
  rw [Finset.sum_congr rfl fun s' _ => hu.2 s', hp0] at h
  have hne : 1 - γ ≠ 0 := sub_ne_zero_of_ne (ne_of_gt hγ1)
  rw [eq_div_iff hne]
  linarith [h]

/-- C1: for a valid Model (row-stochastic `P`, `p0` summing to `1`,
`0 ≤ γ < 1`) and any exact solution `u` of the LP formulated by
`solve_putterman_dual_LP_for_Opt_policy` (feasibility suffices), the value the
method returns — the solver output with negative entries clamped to `0` — is
elementwise non-negative, satisfies the Bellman-flow equality `Wᵀu = p0`
within `1e-6`, and has total mass within the two-sided tolerance `1e-2` of
`1/(1-γ)`. -/
theorem c1_opt_occupancy_invariants {S A : ℕ} (P : Fin S → Fin S → Fin A → ℚ)
    (γ : ℚ) (p0 : Fin S → ℚ) (u : Fin S → Fin A → ℚ)
    (hP : rowStochastic P) (hp0 : ∑ s, p0 s = 1) (hγ0 : 0 ≤ γ) (hγ1 : γ < 1)
    (hu : feasible P γ p0 u) :
    (∀ s a, 0 ≤ clampNeg u s a) ∧
    (∀ s', |WtMulU P γ (clampNeg u) s' - p0 s'| ≤ 1 / 10 ^ 6) ∧
    |totalMass (clampNeg u) - 1 / (1 - γ)| ≤ 1 / 10 ^ 2 := by
  have hcl : clampNeg u = u := clampNeg_eq_of_nonneg hu.1
  refine ⟨fun s a => ?_, fun s' => ?_, ?_⟩
  · rw [hcl]; exact hu.1 s a
  · rw [hcl, hu.2 s']
    simp
  · rw [hcl, totalMass_of_feasible hP hp0 hγ1 hu]
    simp

/-- Concrete 1-state 1-action transition tensor with `P[0,0,0] = 1`. -/
def P0 : Fin 1 → Fin 1 → Fin 1 → ℚ := fun _ _ _ => 1

/-- Concrete initial distribution `p0 = [1]`. -/
def p00 : Fin 1 → ℚ := fun _ => 1

/-- Concrete occupancy matrix `u = [[2]]` (feasible for `P0`, `γ = 1/2`). -/
def u0 : Fin 1 → Fin 1 → ℚ := fun _ _ => 2

/-- Concrete zero reward vector. -/
def r0 : Fin 1 → Fin 1 → ℚ := fun _ _ => 0

/-- C1 witness: the hypotheses of `c1_opt_occupancy_invariants` hold and its
conclusion follows at the concrete model `P0, p00, γ = 1/2` with `u0 = [[2]]`. -/
theorem c1_witness :
    rowStochastic P0 ∧ (∑ s, p00 s) = 1 ∧ (0 : ℚ) ≤ 1 / 2 ∧ (1 : ℚ) / 2 < 1 ∧
    feasible P0 (1 / 2) p00 u0 ∧
    ((∀ s a, 0 ≤ clampNeg u0 s a) ∧
      (∀ s', |WtMulU P0 (1 / 2) (clampNeg u0) s' - p00 s'| ≤ 1 / 10 ^ 6) ∧
      |totalMass (clampNeg u0) - 1 / (1 - 1 / 2)| ≤ 1 / 10 ^ 2) := by
  have hP : rowStochastic P0 := by
    simp [rowStochastic, P0, Fin.sum_univ_one]
  have hp : (∑ s, p00 s) = 1 := by simp [p00, Fin.sum_univ_one]
  have hfeas : feasible P0 (1 / 2) p00 u0 := by
    refine ⟨fun s a => by norm_num [u0], fun s' => ?_⟩
    norm_num [WtMulU, P0, p00, u0, Fin.sum_univ_one,
      eq_iff_true_of_subsingleton]
  exact ⟨hP, hp, by norm_num, by norm_num, hfeas,
    c1_opt_occupancy_invariants P0 (1 / 2) p00 u0 hP hp (by norm_num)
      (by norm_num) hfeas⟩

/-- C3: if `uOpt` is an exact optimum of the maximizing LP of
`solve_putterman_dual_LP_for_Opt_policy` and `uWorst` an exact optimum of the
identical minimizing LP of `solve_worst`, then the worst value is at most the
optimal value, and every feasible occupancy frequency's return `rᵀu` lies
between the two. -/
theorem c3_worst_le_opt_sandwich {S A : ℕ} (P : Fin S → Fin S → Fin A → ℚ)
    (γ : ℚ) (p0 : Fin S → ℚ) (r uOpt uWorst : Fin S → Fin A → ℚ)
    (hOpt : feasible P γ p0 uOpt ∧
      ∀ v, feasible P γ p0 v → dotR r v ≤ dotR r uOpt)
    (hWorst : feasible P γ p0 uWorst ∧
      ∀ v, feasible P γ p0 v → dotR r uWorst ≤ dotR r v) :
    dotR r uWorst ≤ dotR r uOpt ∧
    ∀ u, feasible P γ p0 u → dotR r uWorst ≤ dotR r u ∧ dotR r u ≤ dotR r uOpt :=
  ⟨hWorst.2 uOpt hOpt.1, fun u hu => ⟨hWorst.2 u hu, hOpt.2 u hu⟩⟩

/-- C3 witness: at the concrete model `P0, p00, γ = 1/2` with zero reward,
`u0` is optimal for both the maximizing and the minimizing LP, and the
sandwich conclusion follows. -/
theorem c3_witness :
    ((feasible P0 (1 / 2) p00 u0 ∧
        ∀ v, feasible P0 (1 / 2) p00 v → dotR r0 v ≤ dotR r0 u0) ∧
      (feasible P0 (1 / 2) p00 u0 ∧
        ∀ v, feasible P0 (1 / 2) p00 v → dotR r0 u0 ≤ dotR r0 v)) ∧
    (dotR r0 u0 ≤ dotR r0 u0 ∧
      ∀ u, feasible P0 (1 / 2) p00 u →
        dotR r0 u0 ≤ dotR r0 u ∧ dotR r0 u ≤ dotR r0 u0) := by
  have hfeas : feasible P0 (1 / 2) p00 u0 := by
    refine ⟨fun s a => by norm_num [u0], fun s' => ?_⟩
    norm_num [WtMulU, P0, p00, u0, Fin.sum_univ_one,
      eq_iff_true_of_subsingleton]
  have hmax : ∀ v, feasible P0 (1 / 2) p00 v → dotR r0 v ≤ dotR r0 u0 :=
    fun v _ => by simp [dotR, r0]
  have hmin : ∀ v, feasible P0 (1 / 2) p00 v → dotR r0 u0 ≤ dotR r0 v :=
    fun v _ => by simp [dotR, r0]
  exact ⟨⟨⟨hfeas, hmax⟩, ⟨hfeas, hmin⟩⟩,
    c3_worst_le_opt_sandwich P0 (1 / 2) p00 r0 u0 u0 ⟨hfeas, hmax⟩
      ⟨hfeas, hmin⟩⟩

/-- Averaged transition matrix `P_pi = np.sum(self.P, axis=2) / num_actions`
computed by `generate_random_policy_return` for the uniformly random policy. -/
def randPpi {S A : ℕ} (P : Fin S → Fin S → Fin A → ℚ) : Fin S → Fin S → ℚ :=
  fun s s' => (∑ a, P s s' a) / (A : ℚ)

/-- Identity matrix `np.eye(S)`. -/
def idMat {S : ℕ} : Fin S → Fin S → ℚ := fun i j => if i = j then 1 else 0

/-- Product of two `S × S` matrices. -/
def matMul {S : ℕ} (M N : Fin S → Fin S → ℚ) : Fin S → Fin S → ℚ :=
  fun i j => ∑ k, M i k * N k j

/-- The matrix `np.eye(S) - gamma * P_pi.T` that `generate_random_policy_return`
inverts with `np.linalg.inv`. -/
def randDesign {S A : ℕ} (P : Fin S → Fin S → Fin A → ℚ) (γ : ℚ) :
    Fin S → Fin S → ℚ :=
  fun i j => idMat i j - γ * randPpi P j i

/-- Invertibility of a matrix, modelling `np.linalg.inv` succeeding
(no `LinAlgError`). -/
def isInvertible {S : ℕ} (M : Fin S → Fin S → ℚ) : Prop :=
  ∃ N, matMul M N = idMat ∧ matMul N M = idMat

/-- Exact optimality for the maximizing Bellman-flow LP of
`solve_putterman_dual_LP_for_Opt_policy`. -/
def dualLPOptimal {S A : ℕ} (P : Fin S → Fin S → Fin A → ℚ) (γ : ℚ)
    (p0 : Fin S → ℚ) (r u : Fin S → Fin A → ℚ) : Prop :=
  feasible P γ p0 u ∧ ∀ v, feasible P γ p0 v → dotR r v ≤ dotR r u

/-- Exact optimality for the minimizing Bellman-flow LP of `solve_worst`. -/
def worstLPOptimal {S A : ℕ} (P : Fin S → Fin S → Fin A → ℚ) (γ : ℚ)
    (p0 : Fin S → ℚ) (r u : Fin S → Fin A → ℚ) : Prop :=
  feasible P γ p0 u ∧ ∀ v, feasible P γ p0 v → dotR r u ≤ dotR r v

/-- Success condition of `MDP.__init__`, translated from the source: the
constructor performs no validation of `P` row sums or of `p0` (no
`ConstructionError` exists anywhere in the code); it can fail only via
(i) the `OPTIMAL`-status check and the one-sided assert
`np.sum(u_flat) - (1 / (1 - gamma)) < 10**-2` inside
`solve_putterman_dual_LP_for_Opt_policy`, (ii) the matrix inversion inside
`generate_random_policy_return`, and (iii) the `OPTIMAL`-status check inside
`solve_worst`.  The external solver is idealized as reporting `OPTIMAL`
exactly when the LP has an exact optimum. -/
def initSucceeds {S A : ℕ} (P : Fin S → Fin S → Fin A → ℚ) (γ : ℚ)
    (p0 : Fin S → ℚ) (r : Fin S → Fin A → ℚ) : Prop :=
  (∃ u, dualLPOptimal P γ p0 r u) ∧
  (∀ u, dualLPOptimal P γ p0 r u →
    totalMass (clampNeg u) - 1 / (1 - γ) < 1 / 10 ^ 2) ∧
  isInvertible (randDesign P γ) ∧
  (∃ u, worstLPOptimal P γ p0 r u)

/-- Concrete initial distribution `p0 = [1/2]`, which does not sum to `1`. -/
def pHalf : Fin 1 → ℚ := fun _ => 1 / 2

lemma dotR_r0 (v : Fin 1 → Fin 1 → ℚ) : dotR r0 v = 0 := by
  simp [dotR, r0]

lemma randDesign_P0_invertible : isInvertible (randDesign P0 (1 / 2)) := by
  refine ⟨fun _ _ => 2, ?_, ?_⟩ <;>
    · funext i j
      norm_num [matMul, randDesign, randPpi, idMat, P0, Fin.sum_univ_one,
        eq_iff_true_of_subsingleton]

lemma feasible_const_P0 (c : ℚ) (hc : 0 ≤ c) :
    feasible P0 (1 / 2) (fun _ => c) (fun _ _ => 2 * c) := by
  refine ⟨fun s a => by positivity, fun s' => ?_⟩
  norm_num [WtMulU, P0, Fin.sum_univ_one, eq_iff_true_of_subsingleton]
  ring

lemma dualLPOptimal_forces_mass (c : ℚ) (u : Fin 1 → Fin 1 → ℚ)
    (hu : dualLPOptimal P0 (1 / 2) (fun _ => c) r0 u) :
    totalMass (clampNeg u) = 2 * c ∧ 0 ≤ 2 * c := by
  have h := hu.1.2 0
  have hval : u 0 0 = 2 * c := by
    simp [WtMulU, P0, Fin.sum_univ_one, eq_iff_true_of_subsingleton] at h
    linarith
  have hnn : 0 ≤ u 0 0 := hu.1.1 0 0
  constructor
  · have hcl : clampNeg u 0 0 = u 0 0 := if_neg (not_lt.2 hnn)
    simp [totalMass, Fin.sum_univ_one, hcl, hval]
  · rw [← hval]; exact hnn

/-- C2 counterexample: for the 1-state 1-action input with row-stochastic
`P0`, `γ = 1/2`, zero reward, and initial distribution `pHalf = [1/2]` (which
does not sum to `1`), `MDP.__init__` does not raise: both LPs have exact
optima, the one-sided mass assert passes (`1 - 2 < 1e-2`), and the inversion
succeeds, so a Model object is produced from a malformed `p0`. -/
theorem c2_counterexample :
    rowStochastic P0 ∧ (∑ s, pHalf s) ≠ 1 ∧
    initSucceeds P0 (1 / 2) pHalf r0 := by
  have hfe : feasible P0 (1 / 2) pHalf (fun _ _ => 2 * (1 / 2)) := by
    have := feasible_const_P0 (1 / 2) (by norm_num)
    convert this using 2
  refine ⟨by simp [rowStochastic, P0, Fin.sum_univ_one],
    by norm_num [pHalf, Fin.sum_univ_one], ?_, ?_, randDesign_P0_invertible, ?_⟩
  · exact ⟨fun _ _ => 2 * (1 / 2), hfe,
      fun v _ => by rw [dotR_r0, dotR_r0]⟩
  · intro u hu
    have hm := dualLPOptimal_forces_mass (1 / 2) u (by
      refine ⟨?_, hu.2⟩
      have := hu.1
      convert this using 2)
    rw [hm.1]; norm_num
  · exact ⟨fun _ _ => 2 * (1 / 2), hfe,
      fun v _ => by rw [dotR_r0, dotR_r0]⟩

/-- C2 amended: `MDP.__init__` performs no validation of the transition
tensor or of `p0`, and no `ConstructionError` exists; it raises only when an
LP solved during construction is not reported optimal, when the inversion in
`generate_random_policy_return` fails, or when the one-sided assert
`np.sum(u) - 1/(1-γ) < 1e-2` fails.  In particular, for every initial
distribution `[c]` with `0 < c < 1` (total mass `c ≠ 1`), construction of the
1-state 1-action model with `P0` and `γ = 1/2` succeeds and produces a Model
object instead of raising. -/
theorem c2_amended_no_validation (c : ℚ) (hc0 : 0 < c) (hc1 : c < 1) :
    rowStochastic P0 ∧ (∑ s, (fun _ : Fin 1 => c) s) ≠ 1 ∧
    initSucceeds P0 (1 / 2) (fun _ => c) r0 := by
  have hfe : feasible P0 (1 / 2) (fun _ => c) (fun _ _ => 2 * c) :=
    feasible_const_P0 c hc0.le
  refine ⟨by simp [rowStochastic, P0, Fin.sum_univ_one], ?_,
    ?_, ?_, randDesign_P0_invertible, ?_⟩
  · simpa [Fin.sum_univ_one] using hc1.ne
  · exact ⟨fun _ _ => 2 * c, hfe, fun v _ => by rw [dotR_r0, dotR_r0]⟩
  · intro u hu
    have hm := dualLPOptimal_forces_mass c u hu
    rw [hm.1]; norm_num; linarith
  · exact ⟨fun _ _ => 2 * c, hfe, fun v _ => by rw [dotR_r0, dotR_r0]⟩

/-- C2 witness: the amended statement applied at `c = 1/2`. -/
theorem c2_witness :
    (0 : ℚ) < 1 / 2 ∧ (1 : ℚ) / 2 < 1 ∧
    (rowStochastic P0 ∧ (∑ s, (fun _ : Fin 1 => (1 : ℚ) / 2) s) ≠ 1 ∧
      initSucceeds P0 (1 / 2) (fun _ => 1 / 2) r0) :=
  ⟨by norm_num, by norm_num,
    c2_amended_no_validation (1 / 2) (by norm_num) (by norm_num)⟩

/-- Left fold computing `np.argmax` over the listed indices: the running best
is replaced only on strict improvement, so the result is the first index
attaining the maximum. -/
def argmaxList {A : ℕ} (f : Fin A → ℚ) : List (Fin A) → Fin A → Fin A
  | [], best => best
  | x :: xs, best => argmaxList f xs (if f best < f x then x else best)

/-- Translation of `occupancy_freq_to_policy`: per state, either one-hot on
`np.argmax(u[s,:])` (when `force_deterministic`), or
`u[s,:] / max(Σ_a u[s,a], 1e-10)` when the row mass exceeds `1e-10`, else a
freshly drawn random vector normalized by its own sum.  The NumPy RNG is
modelled by the explicit parameter `rng`: `rng s` is the vector
`np.random.rand(A)` drawn when state `s` hits the fallback branch. -/
def occupancy_freq_to_policy {S A : ℕ} (u : Fin S → Fin A → ℚ)
    (force_deterministic : Bool) (rng : Fin S → Fin A → ℚ) :
    Fin S → Fin A → ℚ :=
  fun s a =>
    if force_deterministic then
      if a = argmaxList (u s) (List.finRange A) ⟨0, a.pos⟩ then 1 else 0
    else
      if (1 : ℚ) / 10 ^ 10 < ∑ a', u s a' then
        u s a / max (∑ a', u s a') ((1 : ℚ) / 10 ^ 10)
      else rng s a / ∑ a', rng s a'

lemma argmaxList_ge {A : ℕ} (f : Fin A → ℚ) (l : List (Fin A)) (b : Fin A) :
    f b ≤ f (argmaxList f l b) ∧ ∀ x ∈ l, f x ≤ f (argmaxList f l b) := by
  induction l generalizing b with
  | nil => exact ⟨le_refl _, by simp⟩
  | cons x xs ih =>
    simp only [argmaxList]
    by_cases h : f b < f x
    · rw [if_pos h]
      refine ⟨le_trans h.le (ih x).1, fun y hy => ?_⟩
      rcases List.mem_cons.1 hy with rfl | hy'
      · exact (ih y).1
      · exact (ih x).2 y hy'
    · rw [if_neg h]
      refine ⟨(ih b).1, fun y hy => ?_⟩
      rcases List.mem_cons.1 hy with rfl | hy'
      · exact le_trans (not_lt.1 h) (ih b).1
      · exact (ih b).2 y hy'

/-- C4: for every non-negative `S × A` occupancy matrix `u`,
`occupancy_freq_to_policy` with `force_deterministic = True` returns a matrix
whose every row is one-hot — a single `1` at an action maximizing `u[s,·]`
(namely `np.argmax`), `0` elsewhere — and with `force_deterministic = False`
returns a row-stochastic matrix: every row is non-negative and sums to `1`
within `1e-9`, including rows of `u` that are entirely zero, where the
normalized random fallback is still a valid simplex point. -/
theorem c4_policy_rows {S A : ℕ} (u rng : Fin S → Fin A → ℚ) (hA : 0 < A)
    (hu : ∀ s a, 0 ≤ u s a) (hrng : ∀ s a, 0 ≤ rng s a)
    (hrpos : ∀ s, 0 < ∑ a, rng s a) :
    (∀ s, ∃ astar : Fin A, (∀ a, u s a ≤ u s astar) ∧
      occupancy_freq_to_policy u true rng s astar = 1 ∧
      ∀ a, a ≠ astar → occupancy_freq_to_policy u true rng s a = 0) ∧
    (∀ s, (∀ a, 0 ≤ occupancy_freq_to_policy u false rng s a) ∧
      |(∑ a, occupancy_freq_to_policy u false rng s a) - 1| ≤ 1 / 10 ^ 9) := by
  constructor
  · intro s
    refine ⟨argmaxList (u s) (List.finRange A) ⟨0, hA⟩, fun a => ?_, ?_, ?_⟩
    · exact (argmaxList_ge (u s) (List.finRange A) ⟨0, hA⟩).2 a
        (List.mem_finRange a)
    · simp only [occupancy_freq_to_policy, if_true]
    · intro a ha
      simp only [occupancy_freq_to_policy, if_true]
      exact if_neg ha
  · intro s
    by_cases hc : (1 : ℚ) / 10 ^ 10 < ∑ a', u s a'
    · have hmax : max (∑ a', u s a') ((1 : ℚ) / 10 ^ 10) = ∑ a', u s a' :=
        max_eq_left hc.le
      have hpos : (0 : ℚ) < ∑ a', u s a' := lt_trans (by norm_num) hc
      constructor
      · intro a
        simp only [occupancy_freq_to_policy, Bool.false_eq_true, if_false,
          if_pos hc, hmax]
        exact div_nonneg (hu s a) hpos.le
      · have hsum : (∑ a, occupancy_freq_to_policy u false rng s a) = 1 := by
          simp only [occupancy_freq_to_policy, Bool.false_eq_true, if_false,
            if_pos hc, hmax]
          rw [← Finset.sum_div]
          exact div_self hpos.ne'
        rw [hsum]
        simp
    · have hR : (0 : ℚ) < ∑ a', rng s a' := hrpos s
      constructor
      · intro a
        simp only [occupancy_freq_to_policy, Bool.false_eq_true, if_false,
          if_neg hc]
        exact div_nonneg (hrng s a) hR.le
      · have hsum : (∑ a, occupancy_freq_to_policy u false rng s a) = 1 := by
          simp only [occupancy_freq_to_policy, Bool.false_eq_true, if_false,
            if_neg hc]
          rw [← Finset.sum_div]
          exact div_self hR.ne'
        rw [hsum]
        simp

/-- Concrete all-ones occupancy matrix on `1` state, `2` actions. -/
def uOnes : Fin 1 → Fin 2 → ℚ := fun _ _ => 1

/-- Concrete RNG draw, all entries `1/2` (valid outputs of `np.random.rand`). -/
def rngHalf : Fin 1 → Fin 2 → ℚ := fun _ _ => 1 / 2

/-- C4 witness: hypotheses and conclusion of `c4_policy_rows` at the concrete
matrix `uOnes` with RNG draw `rngHalf`. -/
theorem c4_witness :
    (0 < 2 ∧ (∀ s a, 0 ≤ uOnes s a) ∧ (∀ s a, 0 ≤ rngHalf s a) ∧
      (∀ s, 0 < ∑ a, rngHalf s a)) ∧
    ((∀ s, ∃ astar : Fin 2, (∀ a, uOnes s a ≤ uOnes s astar) ∧
        occupancy_freq_to_policy uOnes true rngHalf s astar = 1 ∧
        ∀ a, a ≠ astar → occupancy_freq_to_policy uOnes true rngHalf s a = 0) ∧
      (∀ s, (∀ a, 0 ≤ occupancy_freq_to_policy uOnes false rngHalf s a) ∧
        |(∑ a, occupancy_freq_to_policy uOnes false rngHalf s a) - 1|
          ≤ 1 / 10 ^ 9)) := by
  have h1 : ∀ (s : Fin 1) (a : Fin 2), (0 : ℚ) ≤ uOnes s a :=
    fun s a => by norm_num [uOnes]
  have h2 : ∀ (s : Fin 1) (a : Fin 2), (0 : ℚ) ≤ rngHalf s a :=
    fun s a => by norm_num [rngHalf]
  have h3 : ∀ s : Fin 1, (0 : ℚ) < ∑ a, rngHalf s a :=
    fun s => by norm_num [rngHalf, Fin.sum_univ_two]
  exact ⟨⟨by norm_num, h1, h2, h3⟩,
    c4_policy_rows uOnes rngHalf (by norm_num) h1 h2 h3⟩

/-- C9: with the NumPy RNG modelled as an explicit input,
`occupancy_freq_to_policy` with `force_deterministic = False` does not depend
on the RNG when every row of `u` has mass above `1e-10`, but it is not a
deterministic function of `u` alone: on a matrix with a row of mass at most
`1e-10`, two valid draws of `np.random.rand` (entries in `[0,1)`) can yield
different policies, because the fallback row is the freshly drawn vector
normalized by its sum rather than a fixed uniform row. -/
theorem c9_fallback_nondeterminism :
    (∀ (S A : ℕ) (u rng₁ rng₂ : Fin S → Fin A → ℚ),
      (∀ s, (1 : ℚ) / 10 ^ 10 < ∑ a, u s a) →
      occupancy_freq_to_policy u false rng₁ =
        occupancy_freq_to_policy u false rng₂) ∧
    (∃ u rng₁ rng₂ : Fin 1 → Fin 2 → ℚ,
      (∀ s a, 0 ≤ rng₁ s a ∧ rng₁ s a < 1) ∧
      (∀ s a, 0 ≤ rng₂ s a ∧ rng₂ s a < 1) ∧
      (∃ s, ∑ a, u s a ≤ 1 / 10 ^ 10) ∧
      occupancy_freq_to_policy u false rng₁ ≠
        occupancy_freq_to_policy u false rng₂) := by
  constructor
  · intro S A u rng₁ rng₂ h
    funext s a
    simp only [occupancy_freq_to_policy, Bool.false_eq_true, if_false,
      if_pos (h s)]
  · refine ⟨fun _ _ => 0, fun _ _ => 1 / 2, fun _ a => if a = 0 then 1 / 2
      else 1 / 4, ?_, ?_, ⟨0, ?_⟩, ?_⟩
    · intro s a; constructor <;> norm_num
    · intro s a
      by_cases h : a = 0 <;> simp [h] <;> norm_num
    · norm_num [Fin.sum_univ_two]
    · intro heq
      have h00 := congrFun (congrFun heq 0) 0
      norm_num [occupancy_freq_to_policy, Fin.sum_univ_two] at h00

/-- Translation of `MDP.observed`: scan the flattened demonstration pairs and
return the action of the first pair whose state matches (`(True, a)` in the
source), or `none` (`(False, -1)`) when the state never occurs.  The list
argument is the iteration order of the Python set `D_flat`. -/
def observed {S A : ℕ} : List (Fin S × Fin A) → Fin S → Option (Fin A)
  | [], _ => none
  | (s0, a0) :: rest, state => if s0 = state then some a0 else observed rest state

/-- Translation of `construct_constraint_vector` (matrix form, before the
`order="F"` flattening): entry `(s, a)` is `1` when state `s` is observed in
`D_flat` with some action different from `a`, and `0` otherwise. -/
def construct_constraint_vector {S A : ℕ} (D : List (Fin S × Fin A)) :
    Fin S → Fin A → ℚ :=
  fun state action =>
    match observed D state with
    | some a0 => if action ≠ a0 then 1 else 0
    | none => 0

lemma observed_of_mem {S A : ℕ} {D : List (Fin S × Fin A)} {s : Fin S}
    {a : Fin A} (hmem : (s, a) ∈ D)
    (huniq : ∀ p ∈ D, ∀ q ∈ D, Prod.fst p = Prod.fst q →
      Prod.snd p = Prod.snd q) :
    observed D s = some a := by
  induction D with
  | nil => cases hmem
  | cons hd tl ih =>
    obtain ⟨s0, a0⟩ := hd
    by_cases h : s0 = s
    · have ha : a0 = a := huniq (s0, a0) (List.mem_cons_self _ _) (s, a) hmem h
      simp [observed, h, ha]
    · have hmem' : (s, a) ∈ tl := by
        rcases List.mem_cons.1 hmem with heq | htl
        · exact absurd (congrArg Prod.fst heq.symm) h
        · exact htl
      have huniq' : ∀ p ∈ tl, ∀ q ∈ tl, Prod.fst p = Prod.fst q →
          Prod.snd p = Prod.snd q :=
        fun p hp q hq => huniq p (List.mem_cons_of_mem _ hp) q
          (List.mem_cons_of_mem _ hq)
      simp [observed, h, ih hmem' huniq']

lemma observed_of_not_mem {S A : ℕ} {D : List (Fin S × Fin A)} {s : Fin S}
    (h : ∀ a, (s, a) ∉ D) : observed D s = none := by
  induction D with
  | nil => rfl
  | cons hd tl ih =>
    obtain ⟨s0, a0⟩ := hd
    have hs : s0 ≠ s := by
      intro heq
      exact h a0 (by rw [← heq]; exact List.mem_cons_self _ _)
    have htl : ∀ a, (s, a) ∉ tl :=
      fun a ha => h a (List.mem_cons_of_mem _ ha)
    simp [observed, hs, ih htl]

/-- C5: when every state observed in the flattened demonstration set `D_flat`
occurs with exactly one action, `construct_constraint_vector` returns the
matrix with `c[s,a] = 1` for every action other than the unique observed
action of an observed state `s`, `c[s,a*] = 0` at the observed action, and an
all-zero row for every state never observed. -/
theorem c5_constraint_vector {S A : ℕ} (D : List (Fin S × Fin A))
    (huniq : ∀ p ∈ D, ∀ q ∈ D, Prod.fst p = Prod.fst q →
      Prod.snd p = Prod.snd q) :
    ∀ s : Fin S,
      (∀ a, (s, a) ∈ D →
        construct_constraint_vector D s a = 0 ∧
        ∀ a', a' ≠ a → construct_constraint_vector D s a' = 1) ∧
      ((∀ a, (s, a) ∉ D) → ∀ a, construct_constraint_vector D s a = 0) := by
  intro s
  constructor
  · intro a hmem
    have hobs := observed_of_mem hmem huniq
    constructor
    · simp [construct_constraint_vector, hobs]
    · intro a' ha'
      simp [construct_constraint_vector, hobs, ha']
  · intro hnone a
    simp [construct_constraint_vector, observed_of_not_mem hnone]

/-- Concrete flattened demonstration set `[(0, 1)]` on `2` states, `2`
actions: state `0` observed exactly once, with action `1`. -/
def D01 : List (Fin 2 × Fin 2) := [(0, 1)]

/-- C5 witness: hypothesis and conclusion of `c5_constraint_vector` at the
concrete demonstration set `D01`. -/
theorem c5_witness :
    (∀ p ∈ D01, ∀ q ∈ D01, Prod.fst p = Prod.fst q →
      Prod.snd p = Prod.snd q) ∧
    ∀ s : Fin 2,
      (∀ a, (s, a) ∈ D01 →
        construct_constraint_vector D01 s a = 0 ∧
        ∀ a', a' ≠ a → construct_constraint_vector D01 s a' = 1) ∧
      ((∀ a, (s, a) ∉ D01) → ∀ a, construct_constraint_vector D01 s a = 0) := by
  have huniq : ∀ p ∈ D01, ∀ q ∈ D01, Prod.fst p = Prod.fst q →
      Prod.snd p = Prod.snd q := by
    simp [D01]
  exact ⟨huniq, c5_constraint_vector D01 huniq⟩

/-- Discounted visitation that one trajectory contributes to entry `(s, a)`,
starting from time step `t`: the inner loop
`for t, (s,a) in enumerate(d): u_hat[s,a] += gamma**t` of `u_hat_all`. -/
def trajOccFrom {S A : ℕ} (γ : ℚ) (s : Fin S) (a : Fin A) :
    List (Fin S × Fin A) → ℕ → ℚ
  | [], _ => 0
  | p :: rest, t =>
    (if p = (s, a) then γ ^ t else 0) + trajOccFrom γ s a rest (t + 1)

/-- Translation of `u_hat_all` in exact arithmetic: accumulate `γ^t` at the
time-`t` pair of each trajectory, then divide by the number of trajectories
`len(D)`. -/
def u_hat_all {S A : ℕ} (γ : ℚ) (D : List (List (Fin S × Fin A)))
    (s : Fin S) (a : Fin A) : ℚ :=
  (D.map (fun d => trajOccFrom γ s a d 0)).sum / (D.length : ℚ)

/-- C6: the empirical occupancy estimator satisfies the exact mixture identity
on concatenated non-empty demonstration sets: each trajectory contributes
`γ^t` at its time-`t` pair, totals add under concatenation, and dividing by
the number of trajectories gives the weighted average of the two estimates. -/
theorem c6_mixture {S A : ℕ} (γ : ℚ) (D₁ D₂ : List (List (Fin S × Fin A)))
    (h₁ : D₁ ≠ []) (h₂ : D₂ ≠ []) (s : Fin S) (a : Fin A) :
    u_hat_all γ (D₁ ++ D₂) s a =
      ((D₁.length : ℚ) * u_hat_all γ D₁ s a +
        (D₂.length : ℚ) * u_hat_all γ D₂ s a) /
        ((D₁.length : ℚ) + (D₂.length : ℚ)) := by
  have hp₁ : (0 : ℚ) < (D₁.length : ℚ) := by
    exact_mod_cast List.length_pos.2 h₁
  have hp₂ : (0 : ℚ) < (D₂.length : ℚ) := by
    exact_mod_cast List.length_pos.2 h₂
  unfold u_hat_all
  rw [List.map_append, List.sum_append, List.length_append]
  push_cast
  field_simp

/-- Concrete one-trajectory demonstration set on `1` state, `1` action. -/
def Done : List (List (Fin 1 × Fin 1)) := [[(0, 0)]]

/-- Concrete two-trajectory demonstration set on `1` state, `1` action. -/
def Dtwo : List (List (Fin 1 × Fin 1)) := [[(0, 0)], [(0, 0), (0, 0)]]

/-- C6 witness: hypotheses and conclusion of `c6_mixture` at `γ = 1/2` with
the concrete demonstration sets `Done` and `Dtwo`. -/
theorem c6_witness :
    Done ≠ [] ∧ Dtwo ≠ [] ∧
    u_hat_all (1 / 2) (Done ++ Dtwo) 0 0 =
      ((Done.length : ℚ) * u_hat_all (1 / 2) Done 0 0 +
        (Dtwo.length : ℚ) * u_hat_all (1 / 2) Dtwo 0 0) /
        ((Done.length : ℚ) + (Dtwo.length : ℚ)) := by
  have h₁ : Done ≠ [] := by simp [Done]
  have h₂ : Dtwo ≠ [] := by simp [Dtwo]
  exact ⟨h₁, h₂, c6_mixture (1 / 2) Done Dtwo h₁ h₂ 0 0⟩

/-- Minimal model of the IEEE-754 double values arising in `u_hat_all`:
a finite value, NaN, or an infinity. -/
inductive FloatVal where
  | num : ℚ → FloatVal
  | nan : FloatVal
  | inf : FloatVal
  | ninf : FloatVal
deriving DecidableEq

/-- IEEE-754 division with exact finite operands, as NumPy `true_divide`
performs it (emitting a runtime warning, never raising): `0/0` is NaN,
`x/0` is `±∞` for `x ≠ 0`, exact division otherwise. -/
def fdiv (x y : ℚ) : FloatVal :=
  if y = 0 then
    (if x = 0 then FloatVal.nan else
      if 0 < x then FloatVal.inf else FloatVal.ninf)
  else FloatVal.num (x / y)

/-- The value `u_hat_all` actually computes at IEEE semantics: the exact
accumulated numerator divided by `len(D)` with `fdiv` (the accumulation
itself is exact — sums of `γ^t` — so only the final division can produce a
non-finite value). -/
def u_hat_all_ieee {S A : ℕ} (γ : ℚ) (D : List (List (Fin S × Fin A)))
    (s : Fin S) (a : Fin A) : FloatVal :=
  fdiv ((D.map (fun d => trajOccFrom γ s a d 0)).sum) ((D.length : ℚ))

/-- C10: on an empty demonstration set the unguarded division `u_hat / len(D)`
of `u_hat_all` divides `0` by `0`, so every entry of the result is NaN — not
the zero matrix and not an exception — while on any non-empty demonstration
set every entry is an ordinary finite value, so the estimator is well-defined
exactly under the precondition that `D` is non-empty. -/
theorem c10_empty_demonstrations_nan (S A : ℕ) (γ : ℚ) (s : Fin S) (a : Fin A) :
    u_hat_all_ieee γ ([] : List (List (Fin S × Fin A))) s a = FloatVal.nan ∧
    (∀ q : ℚ,
      u_hat_all_ieee γ ([] : List (List (Fin S × Fin A))) s a ≠
        FloatVal.num q) ∧
    ∀ D : List (List (Fin S × Fin A)), D ≠ [] →
      ∃ q : ℚ, u_hat_all_ieee γ D s a = FloatVal.num q := by
  have hnil : u_hat_all_ieee γ ([] : List (List (Fin S × Fin A))) s a =
      FloatVal.nan := by
    simp [u_hat_all_ieee, fdiv]
  refine ⟨hnil, fun q h => ?_, fun D hD => ?_⟩
  · rw [hnil] at h
    cases h
  have hlen : ((D.length : ℚ)) ≠ 0 := by
    exact_mod_cast fun h => hD (List.length_eq_zero.1 h)
  exact ⟨(D.map (fun d => trajOccFrom γ s a d 0)).sum / (D.length : ℚ),
    by simp [u_hat_all_ieee, fdiv, hlen]⟩

/-- Row-vector times matrix, `v @ phi`, for a flattened `SA`-vector and the
`SA × K` feature matrix. -/
def vecMat {n K : ℕ} (v : Fin n → ℚ) (φ : Fin n → Fin K → ℚ) : Fin K → ℚ :=
  fun k => ∑ i, v i * φ i k

/-- `np.linalg.norm(x, ord=np.inf)` of a `K`-vector: the maximum absolute
entry (`0` for `K = 0`). -/
def linfNorm {K : ℕ} (x : Fin K → ℚ) : ℚ :=
  ((List.finRange K).map (fun i => |x i|)).foldl max 0

/-- Default `eps` of `solve_cheb_part_2`:
`np.linalg.norm((u_E - u_hat) @ phi, ord=np.inf) + 1`. -/
def defaultEps {n K : ℕ} (uE uhat : Fin n → ℚ) (φ : Fin n → Fin K → ℚ) : ℚ :=
  linfNorm (vecMat (fun i => uE i - uhat i) φ) + 1

/-- Translation of `eps = passed_eps if passed_eps else (...)` in
`solve_cheb_part_2`: by Python truthiness both `None` and `0.0` are falsy, so
an explicitly supplied `0` also selects the default. -/
def selectEps (passed_eps : Option ℚ) (dflt : ℚ) : ℚ :=
  match passed_eps with
  | none => dflt
  | some e => if e = 0 then dflt else e

/-- C7 (code bug): explicitly passing `eps = 0` to `solve_cheb_part_2` does
not use the supplied value — the Python truthiness test routes `0` to the
default `‖(u_E - û)φ‖∞ + 1`, here equal to `3 ≠ 0` at the concrete one-state
one-feature data `u_E = [2]`, `û = [0]`, `φ = [[1]]` — whereas any supplied
nonzero `eps` is used exactly.  So the constraints and the first returned
value use `3`, not the supplied `0`, contradicting the claim (and the
source's own comment `Use the true epsilon if passsed no epsilon`). -/
theorem c7_eps_zero_falls_back :
    selectEps (some 0)
        (defaultEps (fun _ : Fin 1 => (2 : ℚ)) (fun _ => 0)
          (fun _ _ : Fin 1 => (1 : ℚ))) =
      defaultEps (fun _ : Fin 1 => (2 : ℚ)) (fun _ => 0)
        (fun _ _ : Fin 1 => (1 : ℚ)) ∧
    defaultEps (fun _ : Fin 1 => (2 : ℚ)) (fun _ => 0)
      (fun _ _ : Fin 1 => (1 : ℚ)) = 3 ∧
    (3 : ℚ) ≠ 0 ∧
    ∀ e : ℚ, e ≠ 0 →
      selectEps (some e)
        (defaultEps (fun _ : Fin 1 => (2 : ℚ)) (fun _ => 0)
          (fun _ _ : Fin 1 => (1 : ℚ))) = e := by
  refine ⟨by simp [selectEps], ?_, by norm_num, fun e he => by simp [selectEps, he]⟩
  norm_num [defaultEps, linfNorm, vecMat, List.finRange_succ_eq_map,
    List.finRange_zero, Fin.sum_univ_one]

/-- First `S` rows of `np.eye(S*A)` (the `phi_s` local of `compute_phi_gail`):
`phi_s[s, j] = 1` iff `j = s`. -/
def phi_s (S A : ℕ) (s : Fin S) (j : Fin (S * A)) : ℚ :=
  if (j : ℕ) = (s : ℕ) then 1 else 0

/-- Translation of `compute_phi_gail`: the `S × A × (A·S·A)` tensor that is
zero everywhere except that for each action `a` the block of coordinates
`[a·(S·A), a·(S·A) + S·A)` holds the row `phi_s[s, ·]`. -/
lemma block_index_inj {M x y u v : ℕ} (hx : x < M) (hy : y < M)
    (h : u * M + x = v * M + y) : u = v ∧ x = y := by
  have huv : u = v := by
    by_contra hne
    rcases Nat.lt_or_ge u v with hlt | hge
    · have h1 : (u + 1) * M ≤ v * M := Nat.mul_le_mul_right M hlt
      have h2 : (u + 1) * M = u * M + M := by ring
      omega
    · have hgt : v < u := lt_of_le_of_ne hge (Ne.symm hne)
      have h1 : (v + 1) * M ≤ u * M := Nat.mul_le_mul_right M hgt
      have h2 : (v + 1) * M = v * M + M := by ring
      omega
  exact ⟨huv, by subst huv; omega⟩

def phi_gail {S A : ℕ} (s : Fin S) (a : Fin A) (i : Fin (A * (S * A))) : ℚ :=
  if h : (a : ℕ) * (S * A) ≤ (i : ℕ) ∧
      (i : ℕ) < (a : ℕ) * (S * A) + S * A then
    phi_s S A s ⟨(i : ℕ) - (a : ℕ) * (S * A), by omega⟩
  else 0

/-- C8: `phi_gail` (shape `S × A × (A·S·A)` by its type) is one-hot in its
last coordinate: the in-range index `a·(S·A) + s` inside action `a`'s
disjoint `S·A`-sized block carries `1` and every other coordinate carries
`0`; distinct `(s, a)` pairs select distinct coordinates. -/
theorem c8_phi_gail_one_hot {S A : ℕ} (s : Fin S) (a : Fin A)
    (i : Fin (A * (S * A))) :
    (a : ℕ) * (S * A) + (s : ℕ) < A * (S * A) ∧
    phi_gail s a i =
      (if (i : ℕ) = (a : ℕ) * (S * A) + (s : ℕ) then 1 else 0) ∧
    ∀ (s' : Fin S) (a' : Fin A), (s', a') ≠ (s, a) →
      (a' : ℕ) * (S * A) + (s' : ℕ) ≠ (a : ℕ) * (S * A) + (s : ℕ) := by
  have hsSA : (s : ℕ) < S * A :=
    lt_of_lt_of_le s.isLt (Nat.le_mul_of_pos_right S a.pos)
  have hrange : (a : ℕ) * (S * A) + (s : ℕ) < A * (S * A) := by
    have h1 : (a : ℕ) + 1 ≤ A := a.isLt
    calc (a : ℕ) * (S * A) + (s : ℕ) < (a : ℕ) * (S * A) + S * A := by omega
      _ = ((a : ℕ) + 1) * (S * A) := by ring
      _ ≤ A * (S * A) := Nat.mul_le_mul_right _ h1
  refine ⟨hrange, ?_, ?_⟩
  · unfold phi_gail phi_s
    by_cases hin : (a : ℕ) * (S * A) ≤ (i : ℕ) ∧
        (i : ℕ) < (a : ℕ) * (S * A) + S * A
    · rw [dif_pos hin]
      by_cases hv : (i : ℕ) - (a : ℕ) * (S * A) = (s : ℕ)
      · rw [if_pos hv, if_pos (by omega)]
      · rw [if_neg hv, if_neg (by omega)]
    · rw [dif_neg hin, if_neg (by omega)]
  · intro s' a' hne heq
    have hs'SA : (s' : ℕ) < S * A :=
      lt_of_lt_of_le s'.isLt (Nat.le_mul_of_pos_right S a.pos)
    obtain ⟨ha, hs⟩ := block_index_inj hs'SA hsSA heq
    exact hne (Prod.ext (Fin.ext hs) (Fin.ext ha))

end RMDP
